import Mathlib

/-!
Verification of the crossword constraint-satisfaction solver
(`Project 3 - Crossword`: `generate.py` and `crossword.py`).

Both source files define a `CrosswordCreator` class over a shared puzzle
model (`Crossword` / `Variable`, supplied by a module that is not part of
the source tree; it is modelled here from the specification).  Words are
embedded as `List Char`, Python sets of words as `List Word` (a set with a
fixed, deterministic iteration order), the mutable `self.domains` dict as a
function from variables to word lists, and Python dicts used as
assignments as association lists.  Worklist loops that are not structurally
recursive carry an explicit fuel counter; `none` means the fuel ran out,
which never happens for the fuel actually supplied by callers.
-/

namespace CrosswordCSP

/-- Modelled from the spec: slot direction, one of ACROSS or DOWN
(`Variable.ACROSS` / `Variable.DOWN` in the missing `crossword.py` model). -/
inductive Direction where
  | across
  | down
deriving DecidableEq

/-- Modelled from the spec: a Slot (the `Variable` class of the missing
puzzle model): identity is (row, column, direction, length). -/
structure Variable where
  row : Nat
  col : Nat
  direction : Direction
  length : Nat
deriving DecidableEq

/-- A candidate word, embedded as its list of characters. -/
abbrev Word := List Char

/-- Modelled from the spec: the Puzzle Model (the `Crossword` class, not
present in the source tree): the slots, the dictionary of candidate words,
and the overlap relation mapping an ordered pair of slots to `none` (no
shared cell) or a pair of character offsets.  The spec requires the overlap
relation to be materialized for both orderings and symmetric in content;
that property is stated separately as `SymmOverlaps` and carried as a
hypothesis where a claim needs it. -/
structure Crossword where
  vars : List Variable
  words : List Word
  overlaps : Variable → Variable → Option (Nat × Nat)

/-- Modelled from the spec: `Neighbors(slot)` is the set of slots with a
non-`none` overlap with it. -/
def Crossword.neighbors (c : Crossword) (v : Variable) : List Variable :=
  c.vars.filter (fun u => u != v && (c.overlaps v u).isSome)

/-- The spec's symmetry requirement on the overlap relation: overlap(a,b)
is overlap(b,a) with the two offsets swapped (and in particular one is
`none` exactly when the other is). -/
def SymmOverlaps (c : Crossword) : Prop :=
  ∀ a ∈ c.vars, ∀ b ∈ c.vars,
    c.overlaps b a = (c.overlaps a b).map (fun ij => (ij.2, ij.1))

instance (c : Crossword) : Decidable (SymmOverlaps c) := by
  unfold SymmOverlaps; infer_instance

/-- The Domain Store: each slot's current candidate-word set
(`self.domains` in both source files). -/
abbrev Domains := Variable → List Word

/-- Pointwise update of the Domain Store at one slot
(`self.domains[x] = ...`). -/
def updateD (d : Domains) (x : Variable) (l : List Word) : Domains :=
  fun v => if v = x then l else d v

/-- The Domain Store built by `CrosswordCreator.__init__`: every slot
starts with a copy of the full word dictionary. -/
def initialDomains (c : Crossword) : Domains :=
  fun _ => c.words

/-- A partial assignment: the Python dict mapping slots to chosen words,
embedded as an association list in insertion order. -/
abbrev Assignment := List (Variable × Word)

/-- `assignment[v]` lookup (first binding of `v`, if any). -/
def lookupA (a : Assignment) (v : Variable) : Option Word :=
  (a.find? (fun kv => kv.1 == v)).map (fun kv => kv.2)

/-- `v in assignment`. -/
def containsKeyA (a : Assignment) (v : Variable) : Bool :=
  a.any (fun kv => kv.1 == v)

/-- `assignment[v] = w` for a key not yet present: Python dicts append new
keys at the end of the iteration order. -/
def insertA (a : Assignment) (v : Variable) (w : Word) : Assignment :=
  a ++ [(v, w)]

/-! ### Stable insertion sort

Python's `sorted(..., key=...)` and `list.sort(key=...)` are stable
ascending sorts; they are embedded as a stable insertion sort
parameterized by a strict comparison. -/

/-- Insert `x` into `l` after every element strictly smaller than it. -/
def insSortWith (lt : α → α → Bool) (x : α) : List α → List α
  | [] => [x]
  | y :: ys => if lt y x then y :: insSortWith lt x ys else x :: y :: ys

/-- Stable ascending sort by the strict comparison `lt`. -/
def sortWith (lt : α → α → Bool) (l : List α) : List α :=
  l.foldr (insSortWith lt) []

namespace Generate

/-! Embedding of `generate.py`'s `CrosswordCreator` methods. -/

/-- `CrosswordCreator.enforce_node_consistency` (generate.py:94-103):
keep in each slot's domain exactly the words of the slot's length. -/
def enforce_node_consistency (_c : Crossword) (d : Domains) : Domains :=
  fun v => (d v).filter (fun w => w.length == v.length)

/-- `CrosswordCreator.revise` (generate.py:105-124): look up the overlap
of `(x, y)`; if `none`, return false; otherwise collect the words of
`domains[x]` with no consistent match in `domains[y]` and, if that set is
nonempty, remove it from `domains[x]` and return true. -/
def revise (c : Crossword) (d : Domains) (x y : Variable) : Domains × Bool :=
  match c.overlaps x y with
  | none => (d, false)
  | some (i, j) =>
    let toRemove := (d x).filter
      (fun xw => !((d y).any (fun yw => xw.get? i == yw.get? j)))
    if toRemove.isEmpty then (d, false)
    else (updateD d x ((d x).filter (fun xw => !(toRemove.contains xw))), true)

/-- `CrosswordCreator.ac3` (generate.py:126-144): process the arc worklist
front-first; on a successful revision fail if the revised domain emptied,
otherwise append `(z, x)` for every neighbor `z` of `x` other than `y`.
The extra fuel argument bounds the number of loop iterations; `none` means
the fuel ran out. -/
def ac3 (c : Crossword) : Nat → Domains → List (Variable × Variable) →
    Option (Domains × Bool)
  | 0, _, _ => none
  | fuel + 1, d, arcs =>
    match arcs with
    | [] => some (d, true)
    | (x, y) :: rest =>
      let r := revise c d x y
      if r.2 then
        if (r.1 x).isEmpty then some (r.1, false)
        else
          ac3 c fuel r.1
            (rest ++ ((c.neighbors x).filter (fun z => z != y)).map
              (fun z => (z, x)))
      else ac3 c fuel r.1 rest

/-- The initial worklist of `ac3` when called with no argument: all pairs
`(x, y)` with `y` a neighbor of `x` (generate.py:130-135). -/
def allArcs (c : Crossword) : List (Variable × Variable) :=
  c.vars.flatMap (fun x => (c.neighbors x).map (fun y => (x, y)))

/-- `CrosswordCreator.assignment_complete` (generate.py:146-150):
`set(assignment.keys()) == set(self.crossword.variables)`. -/
def assignment_complete (c : Crossword) (a : Assignment) : Bool :=
  c.vars.all (fun v => containsKeyA a v) &&
    a.all (fun kv => c.vars.contains kv.1)

/-- `CrosswordCreator.consistent` (generate.py:152-170): all assigned
words distinct, each of its slot's length, and every assigned neighbor
pair agreeing on the overlap characters. -/
def consistent (c : Crossword) (a : Assignment) : Bool :=
  ((a.map Prod.snd).dedup.length == a.length) &&
    a.all (fun kv =>
      (kv.1.length == kv.2.length) &&
        (c.neighbors kv.1).all (fun n =>
          match c.overlaps kv.1 n with
          | none => true
          | some (i, j) =>
            match lookupA a n with
            | none => true
            | some w2 => kv.2.get? i == w2.get? j))

/-- The inner `conflicts` closure of `CrosswordCreator.order_domain_values`
(generate.py:176-187): for a candidate word, the number of words in the
domains of unassigned neighbors that disagree at the overlap. -/
def conflicts (c : Crossword) (d : Domains) (a : Assignment)
    (var : Variable) (value : Word) : Nat :=
  ((c.neighbors var).map (fun n =>
    if containsKeyA a n then 0
    else
      match c.overlaps var n with
      | none => 0
      | some (i, j) =>
        ((d n).filter (fun w => !(value.get? i == w.get? j))).length)).foldl
    (· + ·) 0

/-- `CrosswordCreator.order_domain_values` (generate.py:172-189):
`sorted(self.domains[var], key=conflicts)`. -/
def order_domain_values (c : Crossword) (d : Domains) (var : Variable)
    (a : Assignment) : List Word :=
  sortWith
    (fun u v => Nat.blt (conflicts c d a var u) (conflicts c d a var v))
    (d var)

/-- The strict comparison of `select_unassigned_variable`'s key
`(len(self.domains[v]), -len(self.crossword.neighbors(v)))`. -/
def ltVar (c : Crossword) (d : Domains) (u v : Variable) : Bool :=
  Nat.blt (d u).length (d v).length ||
    ((d u).length == (d v).length &&
      Nat.blt (c.neighbors v).length (c.neighbors u).length)

/-- `CrosswordCreator.select_unassigned_variable` (generate.py:191-201):
`min(unassigned, key=...)`, i.e. the first unassigned slot with minimal
(domain size, -degree); `none` when every slot is assigned (where Python's
`min` would raise). -/
def select_unassigned_variable (c : Crossword) (d : Domains)
    (a : Assignment) : Option Variable :=
  match c.vars.filter (fun v => !(containsKeyA a v)) with
  | [] => none
  | v :: rest =>
    some (rest.foldl (fun best u => if ltVar c d u best then u else best) v)

/-- The value loop of `CrosswordCreator.backtrack` (generate.py:212-218),
with the recursive call abstracted as `bt`: try each value in order;
tentatively bind it, recurse when consistent, and undo the binding (the
`del assignment[var]`) before trying the next value. -/
def backtrackGo (c : Crossword) (bt : Assignment → Option (Option Assignment))
    (a : Assignment) (var : Variable) :
    List Word → Option (Option Assignment)
  | [] => some none
  | value :: rest =>
    let a1 := insertA a var value
    if consistent c a1 then
      match bt a1 with
      | none => none
      | some (some r) => some (some r)
      | some none => backtrackGo c bt a var rest
    else backtrackGo c bt a var rest

/-- `CrosswordCreator.backtrack` (generate.py:203-219): return the
assignment once complete, otherwise pick the MRV slot and run the value
loop.  The inner `some` layer is the Python return value (`None` on
failure); the outer `Option` is fuel exhaustion, which never occurs with
fuel exceeding the number of unassigned slots. -/
def backtrack (c : Crossword) (d : Domains) :
    Nat → Assignment → Option (Option Assignment)
  | 0, _ => none
  | fuel + 1, a =>
    if assignment_complete c a then some (some a)
    else
      match select_unassigned_variable c d a with
      | none => none
      | some var =>
        backtrackGo c (backtrack c d fuel) a var
          (order_domain_values c d var a)

/-- `CrosswordCreator.solve` (generate.py:86-92): enforce node
consistency, run a full `ac3` pass — discarding its boolean result — and
return `backtrack` on the empty assignment. -/
def solve (c : Crossword) (fuelAC fuelBT : Nat) : Option (Option Assignment) :=
  let d1 := enforce_node_consistency c (initialDomains c)
  match ac3 c fuelAC d1 (allArcs c) with
  | none => none
  | some r => backtrack c r.1 fuelBT []

/-- Invocation counter for `backtrack` inside the value loop: how many
times `self.backtrack` is entered while scanning the given values (the
recursive call of generate.py:215 plus everything beneath it). -/
def backtrackGoCalls (c : Crossword)
    (bt : Assignment → Option (Option Assignment))
    (btc : Assignment → Nat) (a : Assignment) (var : Variable) :
    List Word → Nat
  | [] => 0
  | value :: rest =>
    let a1 := insertA a var value
    if consistent c a1 then
      btc a1 +
        match bt a1 with
        | none => 0
        | some (some _) => 0
        | some none => backtrackGoCalls c bt btc a var rest
    else backtrackGoCalls c bt btc a var rest

/-- Invocation counter for `backtrack`: entering the function counts one,
plus the invocations made by the value loop. -/
def backtrackCalls (c : Crossword) (d : Domains) :
    Nat → Assignment → Nat
  | 0, _ => 1
  | fuel + 1, a =>
    1 +
      (if assignment_complete c a then 0
       else
        match select_unassigned_variable c d a with
        | none => 0
        | some var =>
          backtrackGoCalls c (backtrack c d fuel) (backtrackCalls c d fuel)
            a var (order_domain_values c d var a))

/-- How many times `solve` (generate.py:86-92) enters `backtrack`: its
final statement is `return self.backtrack(dict())`, unconditionally, so
the count is that of the top-level `backtrack` call (`none` when the `ac3`
fuel runs out). -/
def solveBacktrackCalls (c : Crossword) (fuelAC fuelBT : Nat) : Option Nat :=
  let d1 := enforce_node_consistency c (initialDomains c)
  match ac3 c fuelAC d1 (allArcs c) with
  | none => none
  | some r => some (backtrackCalls c r.1 fuelBT [])

end Generate

namespace CrosswordPy

/-! Embedding of `crossword.py`'s `CrosswordCreator` methods (the variant
with overlap lookups hedged in both orderings, and the backtracking search
that narrows the Domain Store and runs a seeded `ac3` after every
consistent tentative assignment). -/

/-- `CrosswordCreator.enforce_node_consistency` (crossword.py:18-27):
remove from each slot's domain every word whose length differs from the
slot's length. -/
def enforce_node_consistency (_c : Crossword) (d : Domains) : Domains :=
  fun v => (d v).filter (fun w => w.length == v.length)

/-- `CrosswordCreator.revise` (crossword.py:29-76) once the overlap
indices `(i, j)` are fixed: remove from `domains[x]` every word with no
match in `domains[y]` at those positions; return whether anything was
removed. -/
def reviseAt (d : Domains) (x y : Variable) (i j : Nat) : Domains × Bool :=
  let keep := (d x).filter (fun xw => (d y).any (fun yw => xw.get? i == yw.get? j))
  (updateD d x keep, (d x).any (fun xw => !((d y).any (fun yw => xw.get? i == yw.get? j))))

/-- `CrosswordCreator.revise` (crossword.py:29-76): look up the overlap
under `(x, y)`; if absent, look it up under `(y, x)` and flip the indices;
with no overlap either way, return false without revising. -/
def revise (c : Crossword) (d : Domains) (x y : Variable) : Domains × Bool :=
  match c.overlaps x y with
  | some (i, j) => reviseAt d x y i j
  | none =>
    match c.overlaps y x with
    | some (j, i) => reviseAt d x y i j
    | none => (d, false)

/-- `CrosswordCreator.ac3` (crossword.py:78-104): same worklist discipline
as generate.py's, with fuel bounding the loop iterations. -/
def ac3 (c : Crossword) : Nat → Domains → List (Variable × Variable) →
    Option (Domains × Bool)
  | 0, _, _ => none
  | fuel + 1, d, arcs =>
    match arcs with
    | [] => some (d, true)
    | (x, y) :: rest =>
      let r := revise c d x y
      if r.2 then
        if (r.1 x).isEmpty then some (r.1, false)
        else
          ac3 c fuel r.1
            (rest ++ ((c.neighbors x).filter (fun z => z != y)).map
              (fun z => (z, x)))
      else ac3 c fuel r.1 rest

/-- `CrosswordCreator.assignment_complete` (crossword.py:106-109). -/
def assignment_complete (c : Crossword) (a : Assignment) : Bool :=
  c.vars.all (fun v => containsKeyA a v) &&
    a.all (fun kv => c.vars.contains kv.1)

/-- `CrosswordCreator.consistent` (crossword.py:111-143): distinct values,
correct lengths, and overlap agreement for assigned neighbors, with the
overlap looked up in both orderings. -/
def consistent (c : Crossword) (a : Assignment) : Bool :=
  ((a.map Prod.snd).dedup.length == a.length) &&
    a.all (fun kv =>
      (kv.2.length == kv.1.length) &&
        (c.neighbors kv.1).all (fun n =>
          match lookupA a n with
          | none => true
          | some w2 =>
            match c.overlaps kv.1 n with
            | some (i, j) => kv.2.get? i == w2.get? j
            | none =>
              match c.overlaps n kv.1 with
              | some (j, i) => kv.2.get? i == w2.get? j
              | none => true))

/-- The per-value `eliminated` count of `CrosswordCreator.order_domain_values`
(crossword.py:151-174): over unassigned neighbors, the number of neighbor
domain words conflicting at the overlap (looked up in both orderings). -/
def eliminated (c : Crossword) (d : Domains) (a : Assignment)
    (var : Variable) (value : Word) : Nat :=
  ((c.neighbors var).map (fun n =>
    if containsKeyA a n then 0
    else
      match c.overlaps var n with
      | some (i, j) =>
        ((d n).filter (fun w => !(value.get? i == w.get? j))).length
      | none =>
        match c.overlaps n var with
        | some (j, i) =>
          ((d n).filter (fun w => !(value.get? i == w.get? j))).length
        | none => 0)).foldl (· + ·) 0

/-- `CrosswordCreator.order_domain_values` (crossword.py:145-178): build
the `(value, eliminated)` pairs in domain order, stably sort them by the
count, and return the values. -/
def order_domain_values (c : Crossword) (d : Domains) (var : Variable)
    (a : Assignment) : List Word :=
  ((sortWith (fun p q => Nat.blt p.2 q.2)
      ((d var).map (fun value => (value, eliminated c d a var value)))).map
    Prod.fst)

/-- The strict comparison of the `sort_key` closure of
`CrosswordCreator.select_unassigned_variable` (crossword.py:185-186):
ascending lexicographic order on `(len(self.domains[v]), -len(neighbors))`. -/
def ltVar (c : Crossword) (d : Domains) (u v : Variable) : Bool :=
  Nat.blt (d u).length (d v).length ||
    ((d u).length == (d v).length &&
      Nat.blt (c.neighbors v).length (c.neighbors u).length)

/-- `CrosswordCreator.select_unassigned_variable` (crossword.py:180-189):
stably sort the unassigned slots by `(len(domains[v]), -degree)` and take
the head (`none` when all slots are assigned, where Python would raise an
IndexError). -/
def select_unassigned_variable (c : Crossword) (d : Domains)
    (a : Assignment) : Option Variable :=
  (sortWith (ltVar c d) (c.vars.filter (fun v => !(containsKeyA a v)))).head?

/-- The value loop of `CrosswordCreator.backtrack` (crossword.py:202-221),
with the recursive call abstracted as `bt`: for a consistent tentative
value, snapshot the Domain Store, narrow `var`'s domain to the singleton,
run `ac3` seeded with the arcs `(neighbor, var)`, and on failure of either
the propagation or the recursion restore the snapshot and try the next
value; a successful recursion is returned without restoring. -/
def backtrackGo (c : Crossword) (acFuel : Nat)
    (bt : Domains → Assignment → Option (Option Assignment × Domains))
    (d : Domains) (a : Assignment) (var : Variable) :
    List Word → Option (Option Assignment × Domains)
  | [] => some (none, d)
  | value :: rest =>
    let a1 := insertA a var value
    if consistent c a1 then
      match ac3 c acFuel (updateD d var [value])
          ((c.neighbors var).map (fun n => (n, var))) with
      | none => none
      | some (d2, ok) =>
        if ok then
          match bt d2 a1 with
          | none => none
          | some (some r, d3) => some (some r, d3)
          | some (none, _) => backtrackGo c acFuel bt d a var rest
        else backtrackGo c acFuel bt d a var rest
    else backtrackGo c acFuel bt d a var rest

/-- `CrosswordCreator.backtrack` (crossword.py:191-221): returns the
Python result together with the Domain Store the call leaves behind (the
mutated `self.domains`).  `acFuel` feeds the inner `ac3` calls and the
outer fuel bounds the recursion depth; `none` means some fuel ran out. -/
def backtrack (c : Crossword) (acFuel : Nat) :
    Nat → Domains → Assignment → Option (Option Assignment × Domains)
  | 0, _, _ => none
  | fuel + 1, d, a =>
    if assignment_complete c a then some (some a, d)
    else
      match select_unassigned_variable c d a with
      | none => none
      | some var =>
        backtrackGo c acFuel (backtrack c acFuel fuel) d a var
          (order_domain_values c d var a)

end CrosswordPy

/-! ### Concrete puzzles used to instantiate the theorems -/

/-- A length-3 across slot at the origin. -/
def vA : Variable := ⟨0, 0, Direction.across, 3⟩

/-- A length-3 down slot at the origin. -/
def vD : Variable := ⟨0, 0, Direction.down, 3⟩

/-- A two-slot puzzle whose slots share their first characters and whose
dictionary admits a solution. -/
def P1 : Crossword where
  vars := [vA, vD]
  words := [['a','b','c'], ['a','x','y']]
  overlaps := fun a b =>
    if a = vA && b = vD then some (0, 0)
    else if a = vD && b = vA then some (0, 0)
    else none

/-- A two-slot puzzle (across slot's third character is the down slot's
first) whose dictionary supports no arc-consistent pair: a full `ac3` pass
empties a domain. -/
def P0 : Crossword where
  vars := [vA, vD]
  words := [['a','b','c'], ['a','b','d']]
  overlaps := fun a b =>
    if a = vA && b = vD then some (2, 0)
    else if a = vD && b = vA then some (0, 2)
    else none

/-- A Domain Store for `P0` in which `vA` is pinned to one word. -/
def dPinned : Domains :=
  fun v => if v = vA then [['a','b','c']] else [['a','b','c'], ['a','b','d']]

/-- A Domain Store for `P0` in which `vA` is pinned and `vD` keeps one
supported word. -/
def dPinned3 : Domains :=
  fun v =>
    if v = vA then [['a','b','c']]
    else [['a','b','c'], ['a','b','d'], ['c','x','y']]

/-! ### Lemmas about the stable insertion sort -/

theorem insSortWith_perm (lt : α → α → Bool) (x : α) (l : List α) :
    List.Perm (insSortWith lt x l) (x :: l) := by
  induction l with
  | nil => simp [insSortWith]
  | cons y ys ih =>
    by_cases h : lt y x = true
    · simp only [insSortWith, h, if_pos]
      exact (ih.cons y).trans (List.Perm.swap x y ys)
    · simp [insSortWith, h]

theorem sortWith_perm (lt : α → α → Bool) (l : List α) :
    List.Perm (sortWith lt l) l := by
  induction l with
  | nil => simp [sortWith]
  | cons x xs ih =>
    have : sortWith lt (x :: xs) = insSortWith lt x (sortWith lt xs) := rfl
    rw [this]
    exact (insSortWith_perm lt x (sortWith lt xs)).trans (ih.cons x)

theorem insSortWith_pairwise (key : α → Nat) (x : α) (l : List α)
    (h : l.Pairwise (fun u v => key u ≤ key v)) :
    (insSortWith (fun u v => Nat.blt (key u) (key v)) x l).Pairwise
      (fun u v => key u ≤ key v) := by
  induction l with
  | nil => simp [insSortWith]
  | cons y ys ih =>
    rcases List.pairwise_cons.mp h with ⟨hy, hys⟩
    by_cases hlt : Nat.blt (key y) (key x) = true
    · simp only [insSortWith, hlt, if_pos]
      refine List.pairwise_cons.mpr ⟨?_, ih hys⟩
      intro z hz
      have hz' : z ∈ x :: ys :=
        (insSortWith_perm _ x ys).mem_iff.mp hz
      rcases List.mem_cons.mp hz' with rfl | hz''
      · exact Nat.le_of_lt (Nat.blt_eq.mp hlt)
      · exact hy z hz''
    · simp only [insSortWith, hlt, if_neg, Bool.false_eq_true,
        not_false_iff]
      have hxy : key x ≤ key y := by
        have : ¬ key y < key x := fun hc => hlt (Nat.blt_eq.mpr hc)
        omega
      refine List.pairwise_cons.mpr ⟨?_, h⟩
      intro z hz
      rcases List.mem_cons.mp hz with rfl | hz'
      · exact hxy
      · exact le_trans hxy (hy z hz')

theorem sortWith_pairwise (key : α → Nat) (l : List α) :
    (sortWith (fun u v => Nat.blt (key u) (key v)) l).Pairwise
      (fun u v => key u ≤ key v) := by
  induction l with
  | nil => simp [sortWith]
  | cons x xs ih => exact insSortWith_pairwise key x _ ih

theorem insSortWith_filter_key (key : α → Nat) (s : Nat) (x : α)
    (l : List α) :
    (insSortWith (fun u v => Nat.blt (key u) (key v)) x l).filter
        (fun z => key z == s)
      = if key x == s then x :: l.filter (fun z => key z == s)
        else l.filter (fun z => key z == s) := by
  induction l with
  | nil => by_cases h : key x == s <;> simp [insSortWith, h]
  | cons y ys ih =>
    by_cases hlt : Nat.blt (key y) (key x) = true
    · simp only [insSortWith, hlt, if_pos]
      by_cases hxs : key x == s
      · have h2 : key x = s := by simpa using hxs
        have hy : (key y == s) = false := by
          have h1 : key y < key x := Nat.blt_eq.mp hlt
          simp only [beq_eq_false_iff_ne, ne_eq]
          omega
        simp [List.filter_cons, hy, ih, hxs]
      · by_cases hy : (key y == s) = true <;>
          simp [List.filter_cons, hy, hxs, ih]
    · simp only [insSortWith, hlt, if_neg, Bool.false_eq_true,
        not_false_iff]
      by_cases hxs : key x == s <;> simp [List.filter_cons, hxs]

theorem sortWith_filter_key (key : α → Nat) (s : Nat) (l : List α) :
    (sortWith (fun u v => Nat.blt (key u) (key v)) l).filter
        (fun z => key z == s)
      = l.filter (fun z => key z == s) := by
  induction l with
  | nil => rfl
  | cons x xs ih =>
    have hstep : sortWith (fun u v => Nat.blt (key u) (key v)) (x :: xs)
        = insSortWith (fun u v => Nat.blt (key u) (key v)) x
            (sortWith (fun u v => Nat.blt (key u) (key v)) xs) := rfl
    rw [hstep, insSortWith_filter_key, ih]
    by_cases hxs : key x == s <;> simp [List.filter_cons, hxs]

/-! ### Basic facts about `revise` and the pruning operations -/

theorem filter_subset_list (p : α → Bool) (l : List α) : l.filter p ⊆ l :=
  fun _ hw => (List.mem_filter.mp hw).1

/-- The support predicate `revise` keeps: the word has a match in `y`'s
domain at the overlap positions. -/
def hasSupport (d : Domains) (y : Variable) (i j : Nat) (w : Word) : Bool :=
  (d y).any (fun yw => w.get? i == yw.get? j)

theorem Generate.revise_none (c : Crossword) (d : Domains)
    (x y : Variable) (h : c.overlaps x y = none) :
    Generate.revise c d x y = (d, false) := by
  unfold Generate.revise
  rw [h]

theorem Generate.revise_some_eq (c : Crossword) (d : Domains)
    (x y : Variable) (i j : Nat) (h : c.overlaps x y = some (i, j)) :
    Generate.revise c d x y =
      (if ((d x).filter (fun xw => !(hasSupport d y i j xw))).isEmpty
       then (d, false)
       else
        (updateD d x ((d x).filter (fun xw =>
          !(((d x).filter (fun xw => !(hasSupport d y i j xw))).contains xw))),
          true)) := by
  unfold Generate.revise hasSupport
  rw [h]

theorem updateD_same (d : Domains) (x : Variable) (l : List Word) :
    updateD d x l x = l := by
  unfold updateD
  rw [if_pos rfl]

theorem updateD_other (d : Domains) (x v : Variable) (l : List Word)
    (hv : v ≠ x) : updateD d x l v = d v := by
  unfold updateD
  rw [if_neg hv]

theorem Generate.revise_eq_filter (c : Crossword) (d : Domains)
    (x y : Variable) (i j : Nat) (h : c.overlaps x y = some (i, j)) :
    (Generate.revise c d x y).1 x = (d x).filter (hasSupport d y i j) := by
  rw [Generate.revise_some_eq c d x y i j h]
  by_cases hemp :
      ((d x).filter (fun xw => !(hasSupport d y i j xw))).isEmpty = true
  · rw [if_pos hemp]
    have hall : ∀ w ∈ d x, hasSupport d y i j w = true := by
      intro w hw
      have := List.filter_eq_nil_iff.mp (List.isEmpty_iff.mp hemp) w hw
      simpa using this
    exact (List.filter_eq_self.mpr hall).symm
  · rw [if_neg hemp]
    show updateD d x ((d x).filter (fun xw =>
        !(((d x).filter (fun xw => !(hasSupport d y i j xw))).contains xw))) x
      = (d x).filter (hasSupport d y i j)
    rw [updateD_same]
    refine List.filter_congr ?_
    intro w hw
    by_cases hs : hasSupport d y i j w = true
    · have hnm : w ∉ (d x).filter (fun xw => !(hasSupport d y i j xw)) := by
        intro hmem
        have h2 := (List.mem_filter.mp hmem).2
        rw [hs] at h2
        cases h2
      have hcont :
          ((d x).filter (fun xw => !(hasSupport d y i j xw))).contains w
            = false := by
        rcases Bool.eq_false_or_eq_true
            (((d x).filter (fun xw => !(hasSupport d y i j xw))).contains w)
          with hc | hc
        · exact absurd (List.elem_iff.mp hc) hnm
        · exact hc
      rw [hcont, hs]
      rfl
    · have hs' : hasSupport d y i j w = false := Bool.eq_false_iff.mpr hs
      have hm : w ∈ (d x).filter (fun xw => !(hasSupport d y i j xw)) := by
        refine List.mem_filter.mpr ⟨hw, ?_⟩
        rw [hs']
        rfl
      have hcont :
          ((d x).filter (fun xw => !(hasSupport d y i j xw))).contains w
            = true :=
        List.elem_iff.mpr hm
      rw [hcont, hs']
      rfl

theorem Generate.revise_other (c : Crossword) (d : Domains)
    (x y v : Variable) (hv : v ≠ x) :
    (Generate.revise c d x y).1 v = d v := by
  cases ho : c.overlaps x y with
  | none => rw [Generate.revise_none c d x y ho]
  | some ij =>
    obtain ⟨i, j⟩ := ij
    rw [Generate.revise_some_eq c d x y i j ho]
    by_cases hemp :
        ((d x).filter (fun xw => !(hasSupport d y i j xw))).isEmpty = true
    · rw [if_pos hemp]
    · rw [if_neg hemp]
      show updateD d x _ v = d v
      exact updateD_other d x v _ hv

theorem Generate.revise_flag (c : Crossword) (d : Domains)
    (x y : Variable) (i j : Nat) (h : c.overlaps x y = some (i, j)) :
    ((Generate.revise c d x y).2 = true ↔
      ∃ w ∈ d x, hasSupport d y i j w = false) := by
  rw [Generate.revise_some_eq c d x y i j h]
  by_cases hemp :
      ((d x).filter (fun xw => !(hasSupport d y i j xw))).isEmpty = true
  · rw [if_pos hemp]
    constructor
    · intro hfalse; cases hfalse
    · rintro ⟨w, hw, hsup⟩
      have := List.filter_eq_nil_iff.mp (List.isEmpty_iff.mp hemp) w hw
      rw [hsup] at this
      exact absurd rfl this
  · rw [if_neg hemp]
    constructor
    · intro _
      have hne : (d x).filter (fun xw => !(hasSupport d y i j xw)) ≠ [] := by
        intro hnil
        rw [hnil] at hemp
        exact hemp rfl
      obtain ⟨w, hw⟩ := List.exists_mem_of_ne_nil _ hne
      have hmem := List.mem_filter.mp hw
      refine ⟨w, hmem.1, ?_⟩
      have h2 := hmem.2
      simpa using h2
    · intro _; rfl

theorem Generate.revise_subset (c : Crossword) (d : Domains)
    (x y v : Variable) : (Generate.revise c d x y).1 v ⊆ d v := by
  by_cases hv : v = x
  · rw [hv]
    cases h : c.overlaps x y with
    | none => rw [Generate.revise_none c d x y h]; exact fun _ h => h
    | some ij =>
      obtain ⟨i, j⟩ := ij
      rw [Generate.revise_eq_filter c d x y i j h]
      exact filter_subset_list _ _
  · rw [Generate.revise_other c d x y v hv]
    exact fun _ h => h

theorem Generate.revise_false_fst (c : Crossword) (d : Domains)
    (x y : Variable) (h : (Generate.revise c d x y).2 = false) :
    (Generate.revise c d x y).1 = d := by
  cases ho : c.overlaps x y with
  | none => rw [Generate.revise_none c d x y ho]
  | some ij =>
    obtain ⟨i, j⟩ := ij
    rw [Generate.revise_some_eq c d x y i j ho] at h ⊢
    by_cases hemp :
        ((d x).filter (fun xw => !(hasSupport d y i j xw))).isEmpty = true
    · rw [if_pos hemp]
    · rw [if_neg hemp] at h
      cases h

theorem CrosswordPy.revise_shrinks (c : Crossword) (d : Domains)
    (x y v : Variable) : (CrosswordPy.revise c d x y).1 v ⊆ d v := by
  have hAt : ∀ i j, (CrosswordPy.reviseAt d x y i j).1 v ⊆ d v := by
    intro i j
    unfold CrosswordPy.reviseAt updateD
    by_cases hv : v = x
    · subst hv; simp only [if_pos]; exact filter_subset_list _ _
    · simp only [hv, if_neg, not_false_iff]; exact fun _ h => h
  unfold CrosswordPy.revise
  cases c.overlaps x y with
  | some ij => obtain ⟨i, j⟩ := ij; exact hAt i j
  | none =>
    cases c.overlaps y x with
    | some ji => obtain ⟨j, i⟩ := ji; exact hAt i j
    | none => exact fun _ h => h

theorem Generate.ac3_subset (c : Crossword) :
    ∀ fuel (d : Domains) arcs res,
      Generate.ac3 c fuel d arcs = some res → ∀ v, res.1 v ⊆ d v := by
  intro fuel
  induction fuel with
  | zero => intro d arcs res h; cases h
  | succ fuel ih =>
    intro d arcs res h v
    match arcs with
    | [] =>
      simp only [Generate.ac3] at h
      cases h
      exact fun _ h => h
    | (x, y) :: rest =>
      simp only [Generate.ac3] at h
      by_cases hr : (Generate.revise c d x y).2 = true
      · rw [if_pos hr] at h
        by_cases hemp : ((Generate.revise c d x y).1 x).isEmpty = true
        · rw [if_pos hemp] at h
          cases h
          exact Generate.revise_subset c d x y v
        · rw [if_neg hemp] at h
          exact fun w hw =>
            Generate.revise_subset c d x y v (ih _ _ _ h v hw)
      · rw [if_neg hr] at h
        exact fun w hw =>
          Generate.revise_subset c d x y v (ih _ _ _ h v hw)

theorem filter_idem (p : α → Bool) (l : List α) :
    (l.filter p).filter p = l.filter p := by
  induction l with
  | nil => rfl
  | cons x xs ih =>
    by_cases h : p x = true <;> simp [List.filter_cons, h, ih]

/-- Claim C9: `enforce_node_consistency` is idempotent: running it twice
leaves every slot's domain equal to the result of one run, and one run
keeps exactly the initial words of the slot's length. -/
theorem claim_node_consistency_idempotent (c : Crossword) (d : Domains)
    (v : Variable) :
    Generate.enforce_node_consistency c
        (Generate.enforce_node_consistency c d) v
      = Generate.enforce_node_consistency c d v ∧
    Generate.enforce_node_consistency c d v
      = (d v).filter (fun w => w.length == v.length) :=
  ⟨filter_idem _ _, rfl⟩

/-- Claim C5: `revise(x, y)` with no overlap is a no-op returning false;
with overlap `(i, j)` it removes from `domain(x)` exactly the words with
no supporting word in `domain(y)` at the overlap positions, returns true
iff something was removed, and leaves every other domain (in particular
`domain(y)`) untouched. -/
theorem claim_revise_exact (c : Crossword) (d : Domains) (x y : Variable) :
    (c.overlaps x y = none → Generate.revise c d x y = (d, false)) ∧
    (∀ i j, c.overlaps x y = some (i, j) →
      (Generate.revise c d x y).1 x = (d x).filter (hasSupport d y i j) ∧
      ((Generate.revise c d x y).2 = true ↔
        ∃ w ∈ d x, hasSupport d y i j w = false) ∧
      ∀ v, v ≠ x → (Generate.revise c d x y).1 v = d v) := by
  refine ⟨Generate.revise_none c d x y, ?_⟩
  intro i j h
  exact ⟨Generate.revise_eq_filter c d x y i j h,
    Generate.revise_flag c d x y i j h,
    fun v hv => Generate.revise_other c d x y v hv⟩

/-- Witness for C5 at the concrete puzzle `P0`: the arc from the down slot
to the pinned across slot has overlap `(0, 2)` and the revision keeps
exactly the supported words. -/
theorem claim_revise_exact_witness :
    P0.overlaps vD vA = some (0, 2) ∧
    ((Generate.revise P0 dPinned3 vD vA).1 vD
        = (dPinned3 vD).filter (hasSupport dPinned3 vA 0 2) ∧
      ((Generate.revise P0 dPinned3 vD vA).2 = true ↔
        ∃ w ∈ dPinned3 vD, hasSupport dPinned3 vA 0 2 w = false) ∧
      ∀ v, v ≠ vD → (Generate.revise P0 dPinned3 vD vA).1 v = dPinned3 v) :=
  ⟨by decide, (claim_revise_exact P0 dPinned3 vD vA).2 0 2 (by decide)⟩

/-- Claim C10: every pruning operation only shrinks domains: after
`enforce_node_consistency`, either file's `revise`, or `ac3` with any
argument, each slot's domain is a subset of what it was before. -/
theorem claim_pruning_shrinks (c : Crossword) (d : Domains) :
    (∀ v, Generate.enforce_node_consistency c d v ⊆ d v) ∧
    (∀ x y v, (Generate.revise c d x y).1 v ⊆ d v) ∧
    (∀ x y v, (CrosswordPy.revise c d x y).1 v ⊆ d v) ∧
    (∀ fuel arcs, (Generate.ac3 c fuel d arcs).isSome = true →
      ∀ v, ((Generate.ac3 c fuel d arcs).getD (d, true)).1 v ⊆ d v) := by
  refine ⟨fun v => filter_subset_list _ _,
    fun x y v => Generate.revise_subset c d x y v,
    fun x y v => CrosswordPy.revise_shrinks c d x y v, ?_⟩
  intro fuel arcs h v
  obtain ⟨res, hres⟩ := Option.isSome_iff_exists.mp h
  rw [hres, Option.getD_some]
  exact Generate.ac3_subset c fuel d arcs res hres v

/-- Witness for C10: on `P0` the full `ac3` pass completes (failing), and
a word surviving in the down slot's domain was already there initially. -/
theorem claim_pruning_shrinks_witness :
    (Generate.ac3 P0 20 (initialDomains P0) (Generate.allArcs P0)).isSome
        = true ∧
    ['a','b','c'] ∈
      ((Generate.ac3 P0 20 (initialDomains P0)
        (Generate.allArcs P0)).getD (initialDomains P0, true)).1 vD ∧
    ['a','b','c'] ∈ initialDomains P0 vD :=
  ⟨by decide, by decide,
    (claim_pruning_shrinks P0 (initialDomains P0)).2.2.2 20
      (Generate.allArcs P0) (by decide) vD (by decide)⟩

/-- Claim C7: `ac3` works the list front-first (FIFO), fails immediately
when a revision empties the revised domain, otherwise appends the arcs
`(z, x)` for the other neighbors `z` of `x` at the back, and returns true
exactly when the worklist empties. -/
theorem claim_ac3_worklist (c : Crossword) :
    (∀ fuel (d : Domains), Generate.ac3 c (fuel + 1) d [] = some (d, true)) ∧
    (∀ fuel (d : Domains) x y rest,
      (Generate.revise c d x y).2 = false →
      Generate.ac3 c (fuel + 1) d ((x, y) :: rest)
        = Generate.ac3 c fuel d rest) ∧
    (∀ fuel (d : Domains) x y rest,
      (Generate.revise c d x y).2 = true →
      ((Generate.revise c d x y).1 x).isEmpty = true →
      Generate.ac3 c (fuel + 1) d ((x, y) :: rest)
        = some ((Generate.revise c d x y).1, false)) ∧
    (∀ fuel (d : Domains) x y rest,
      (Generate.revise c d x y).2 = true →
      ((Generate.revise c d x y).1 x).isEmpty = false →
      Generate.ac3 c (fuel + 1) d ((x, y) :: rest)
        = Generate.ac3 c fuel (Generate.revise c d x y).1
            (rest ++ ((c.neighbors x).filter (fun z => z != y)).map
              (fun z => (z, x)))) := by
  refine ⟨fun fuel d => rfl, ?_, ?_, ?_⟩
  · intro fuel d x y rest hr
    show (if (Generate.revise c d x y).2 = true then _ else _) = _
    rw [if_neg (by rw [hr]; exact Bool.false_ne_true),
      Generate.revise_false_fst c d x y hr]
  · intro fuel d x y rest hr hemp
    show (if (Generate.revise c d x y).2 = true then _ else _) = _
    rw [if_pos hr, if_pos hemp]
  · intro fuel d x y rest hr hemp
    show (if (Generate.revise c d x y).2 = true then _ else _) = _
    rw [if_pos hr, if_neg (by rw [hemp]; exact Bool.false_ne_true)]

/-- Witness for C7, instantiating each conditional step at a concrete
puzzle/worklist: a fruitless revision pops the head only; a domain-emptying
revision fails at once; a shrinking revision re-enqueues the reverse
neighbor arcs at the back. -/
theorem claim_ac3_worklist_witness :
    ((Generate.revise P0 (initialDomains P0) vA vA).2 = false ∧
      Generate.ac3 P0 4 (initialDomains P0) [(vA, vA)]
        = Generate.ac3 P0 3 (initialDomains P0) []) ∧
    ((Generate.revise P0 dPinned vD vA).2 = true ∧
      ((Generate.revise P0 dPinned vD vA).1 vD).isEmpty = true ∧
      Generate.ac3 P0 4 dPinned [(vD, vA)]
        = some ((Generate.revise P0 dPinned vD vA).1, false)) ∧
    ((Generate.revise P0 dPinned3 vD vA).2 = true ∧
      ((Generate.revise P0 dPinned3 vD vA).1 vD).isEmpty = false ∧
      Generate.ac3 P0 4 dPinned3 [(vD, vA)]
        = Generate.ac3 P0 3 (Generate.revise P0 dPinned3 vD vA).1
            ([] ++ ((P0.neighbors vD).filter (fun z => z != vA)).map
              (fun z => (z, vD)))) :=
  ⟨⟨by decide, (claim_ac3_worklist P0).2.1 3 _ vA vA [] (by decide)⟩,
    ⟨by decide, by decide,
      (claim_ac3_worklist P0).2.2.1 3 _ vD vA [] (by decide) (by decide)⟩,
    ⟨by decide, by decide,
      (claim_ac3_worklist P0).2.2.2 3 _ vD vA [] (by decide) (by decide)⟩⟩

/-! ### The inference-based backtrack of crossword.py (claims C1 and C4) -/

/-- Claim C1: in crossword.py's `backtrack`, a tentative value that passes
the consistency check triggers exactly the seeded propagation: the Domain
Store is snapshotted, `var`'s domain narrowed to the singleton `[value]`,
and `ac3` run on the arcs `(neighbor, var)`; whenever that call returns
false, the snapshot is restored and the search continues with the next
candidate value under the original store and assignment. -/
theorem claim_backtrack_inference (c : Crossword) (acFuel fuel : Nat)
    (d : Domains) (a : Assignment) (var : Variable) (value : Word)
    (rest : List Word)
    (hcons : CrosswordPy.consistent c (insertA a var value) = true)
    (hac : (CrosswordPy.ac3 c acFuel (updateD d var [value])
        ((c.neighbors var).map (fun n => (n, var)))).map Prod.snd
      = some false) :
    CrosswordPy.backtrackGo c acFuel (CrosswordPy.backtrack c acFuel fuel)
        d a var (value :: rest)
      = CrosswordPy.backtrackGo c acFuel (CrosswordPy.backtrack c acFuel fuel)
        d a var rest := by
  obtain ⟨r, hr, hr2⟩ := Option.map_eq_some'.mp hac
  obtain ⟨d2, ok⟩ := r
  simp only at hr2
  simp only [CrosswordPy.backtrackGo, hcons, if_pos, hr, hr2]
  rw [if_neg Bool.false_ne_true]

/-- The value loop of crossword.py's `backtrack` restores the entry Domain
Store whenever it fails: the failure result carries the unchanged `d`. -/
theorem CrosswordPy.backtrackGo_failure (c : Crossword) (acFuel : Nat)
    (bt : Domains → Assignment → Option (Option Assignment × Domains))
    (d : Domains) (a : Assignment) (var : Variable) :
    ∀ l, (CrosswordPy.backtrackGo c acFuel bt d a var l).map Prod.fst
        = some none →
      CrosswordPy.backtrackGo c acFuel bt d a var l = some (none, d) := by
  intro l
  induction l with
  | nil => intro _; rfl
  | cons value rest ih =>
    intro h
    simp only [CrosswordPy.backtrackGo] at h ⊢
    by_cases hcons : CrosswordPy.consistent c (insertA a var value) = true
    · rw [if_pos hcons] at h ⊢
      cases hac : CrosswordPy.ac3 c acFuel (updateD d var [value])
          ((c.neighbors var).map (fun n => (n, var))) with
      | none => rw [hac] at h; cases h
      | some r =>
        obtain ⟨d2, ok⟩ := r
        simp only [hac] at h ⊢
        cases ok with
        | false =>
          rw [if_neg Bool.false_ne_true] at h ⊢
          exact ih h
        | true =>
          rw [if_pos rfl] at h ⊢
          cases hbt : bt d2 (insertA a var value) with
          | none => rw [hbt] at h; cases h
          | some rr =>
            obtain ⟨res, d3⟩ := rr
            cases res with
            | none =>
              simp only [hbt] at h ⊢
              exact ih h
            | some r2 =>
              simp only [hbt] at h
              simp at h
    · rw [if_neg hcons] at h ⊢
      exact ih h

/-- Claim C4: whenever a call to crossword.py's `backtrack` returns the
failure signal, the Domain Store it leaves behind is exactly the one it
was entered with (every narrowing done in the branch, including all
seeded-`ac3` removals, has been undone by the snapshot restores). -/
theorem claim_backtrack_restores (c : Crossword) (acFuel fuel : Nat)
    (d : Domains) (a : Assignment)
    (h : (CrosswordPy.backtrack c acFuel fuel d a).map Prod.fst = some none) :
    CrosswordPy.backtrack c acFuel fuel d a = some (none, d) := by
  cases fuel with
  | zero => cases h
  | succ fuel =>
    simp only [CrosswordPy.backtrack] at h ⊢
    by_cases hcomp : CrosswordPy.assignment_complete c a = true
    · rw [if_pos hcomp] at h
      simp at h
    · rw [if_neg hcomp] at h ⊢
      cases hsel : CrosswordPy.select_unassigned_variable c d a with
      | none => rw [hsel] at h; cases h
      | some var =>
        simp only [hsel] at h ⊢
        exact CrosswordPy.backtrackGo_failure c acFuel _ d a var _ h

/-- Witness for C1 on `P0`: pinning the across slot to its first candidate
passes the consistency check, the seeded `ac3` empties the down slot and
returns false, and the loop proceeds to the remaining candidate with the
original Domain Store. -/
theorem claim_backtrack_inference_witness :
    (CrosswordPy.consistent P0 (insertA [] vA ['a','b','c']) = true ∧
      (CrosswordPy.ac3 P0 10 (updateD (initialDomains P0) vA [['a','b','c']])
          ((P0.neighbors vA).map (fun n => (n, vA)))).map Prod.snd
        = some false) ∧
    CrosswordPy.backtrackGo P0 10 (CrosswordPy.backtrack P0 10 2)
        (initialDomains P0) [] vA [['a','b','c'], ['a','b','d']]
      = CrosswordPy.backtrackGo P0 10 (CrosswordPy.backtrack P0 10 2)
        (initialDomains P0) [] vA [['a','b','d']] :=
  ⟨⟨by decide, by decide⟩,
    claim_backtrack_inference P0 10 2 (initialDomains P0) [] vA
      ['a','b','c'] [['a','b','d']] (by decide) (by decide)⟩

/-- Witness for C4 on the unsatisfiable `P0`: the search fails and
returns with the entry Domain Store intact. -/
theorem claim_backtrack_restores_witness :
    (CrosswordPy.backtrack P0 10 3 (initialDomains P0) []).map Prod.fst
        = some none ∧
    CrosswordPy.backtrack P0 10 3 (initialDomains P0) []
      = some (none, initialDomains P0) :=
  ⟨by decide,
    claim_backtrack_restores P0 10 3 (initialDomains P0) [] (by decide)⟩

/-! ### Least-constraining-value ordering (claim C8) -/

/-- From the claim's words (a spec-side definition, to be compared with
the code's `conflicts`): the conflict score of a candidate word is the
number of pairs `(n, w2)` with `n` an unassigned neighbor of the slot and
`w2` a word of `n`'s domain disagreeing with the candidate at the overlap
positions. -/
def conflictScoreSpec (c : Crossword) (d : Domains) (a : Assignment)
    (var : Variable) (value : Word) : Nat :=
  (((c.neighbors var).filter (fun n => !(containsKeyA a n))).flatMap (fun n =>
    ((d n).filter (fun w2 =>
      match c.overlaps var n with
      | none => false
      | some (i, j) => !(value.get? i == w2.get? j))).map
      (fun w2 => (n, w2)))).length

theorem foldl_add_init (l : List Nat) :
    ∀ n, l.foldl (· + ·) n = n + l.foldl (· + ·) 0 := by
  induction l with
  | nil => intro n; simp [List.foldl]
  | cons x xs ih =>
    intro n
    show xs.foldl (· + ·) (n + x) = n + xs.foldl (· + ·) (0 + x)
    rw [ih (n + x), ih (0 + x)]
    omega

theorem sum_map_eq_length_flatMap (f : Variable → Nat) (g : Variable → Bool)
    (h : Variable → List (Variable × Word)) :
    ∀ L : List Variable, (∀ n ∈ L, f n = if g n then (h n).length else 0) →
      (L.map f).foldl (· + ·) 0 = ((L.filter g).flatMap h).length := by
  intro L
  induction L with
  | nil => intro _; rfl
  | cons n ns ih =>
    intro hfg
    have hn := hfg n (List.mem_cons_self n ns)
    have hns := ih (fun m hm => hfg m (List.mem_cons_of_mem n hm))
    show ((ns.map f).foldl (· + ·) (0 + f n)) = _
    rw [foldl_add_init, hns]
    by_cases hg : g n = true
    · rw [List.filter_cons, if_pos hg, List.flatMap_cons, List.length_append,
        hn, if_pos hg]
      omega
    · rw [List.filter_cons, if_neg hg, hn, if_neg hg]
      omega

theorem conflicts_eq_spec (c : Crossword) (d : Domains) (a : Assignment)
    (var : Variable) (value : Word) :
    Generate.conflicts c d a var value = conflictScoreSpec c d a var value := by
  unfold Generate.conflicts conflictScoreSpec
  have key : ∀ n ∈ c.neighbors var,
      (if containsKeyA a n then 0
       else
        match c.overlaps var n with
        | none => 0
        | some (i, j) =>
          ((d n).filter (fun w => !(value.get? i == w.get? j))).length)
      = if (!(containsKeyA a n))
        then (((d n).filter (fun w2 =>
            match c.overlaps var n with
            | none => false
            | some (i, j) => !(value.get? i == w2.get? j))).map
          (fun w2 => (n, w2))).length
        else 0 := by
    intro n _
    by_cases hc : containsKeyA a n = true
    · rw [if_pos hc]
      have hg : (!(containsKeyA a n)) = false := by rw [hc]; rfl
      rw [hg, if_neg Bool.false_ne_true]
    · have hc' : containsKeyA a n = false := Bool.eq_false_iff.mpr hc
      rw [if_neg hc]
      have hg : (!(containsKeyA a n)) = true := by rw [hc']; rfl
      rw [hg, if_pos rfl, List.length_map]
      cases ho : c.overlaps var n with
      | none => simp
      | some ij =>
        obtain ⟨i, j⟩ := ij
        rfl
  exact sum_map_eq_length_flatMap _ _ _ (c.neighbors var) key

/-- Claim C8: `order_domain_values` returns the slot's current candidates
sorted ascending by conflict score — the number of (unassigned neighbor,
neighbor word) pairs disagreeing at the overlap — with ties kept in stable
(domain) order; being a pure function of the store, it mutates nothing. -/
theorem claim_order_domain_values (c : Crossword) (d : Domains)
    (var : Variable) (a : Assignment) :
    List.Perm (Generate.order_domain_values c d var a) (d var) ∧
    (Generate.order_domain_values c d var a).Pairwise
      (fun u v =>
        conflictScoreSpec c d a var u ≤ conflictScoreSpec c d a var v) ∧
    ∀ s, (Generate.order_domain_values c d var a).filter
        (fun w => conflictScoreSpec c d a var w == s)
      = (d var).filter (fun w => conflictScoreSpec c d a var w == s) := by
  refine ⟨sortWith_perm _ _, ?_, ?_⟩
  · have hp := sortWith_pairwise
      (fun w => Generate.conflicts c d a var w) (d var)
    refine hp.imp ?_
    intro u v huv
    rw [← conflicts_eq_spec, ← conflicts_eq_spec]
    exact huv
  · intro s
    have hf := sortWith_filter_key
      (fun w => Generate.conflicts c d a var w) s (d var)
    simp only [← conflicts_eq_spec]
    exact hf

/-! ### Top-level solve (claim C2) -/

theorem Generate.neighbors_subset (c : Crossword) (x : Variable) :
    ∀ z ∈ c.neighbors x, z ∈ c.vars :=
  fun _ hz => (List.mem_filter.mp hz).1

theorem Generate.allArcs_wf (c : Crossword) :
    ∀ ar ∈ Generate.allArcs c, ar.1 ∈ c.vars := by
  intro ar har
  obtain ⟨x, hx, hmem⟩ := List.mem_flatMap.mp har
  obtain ⟨y, _, rfl⟩ := List.mem_map.mp hmem
  exact hx

theorem Generate.ac3_false_empty (c : Crossword) :
    ∀ fuel (d : Domains) arcs res, (∀ ar ∈ arcs, ar.1 ∈ c.vars) →
      Generate.ac3 c fuel d arcs = some res → res.2 = false →
      ∃ v ∈ c.vars, res.1 v = [] := by
  intro fuel
  induction fuel with
  | zero => intro d arcs res _ h _; cases h
  | succ fuel ih =>
    intro d arcs res hwf h hres
    match arcs with
    | [] =>
      simp only [Generate.ac3] at h
      cases h
      simp at hres
    | (x, y) :: rest =>
      simp only [Generate.ac3] at h
      by_cases hr : (Generate.revise c d x y).2 = true
      · rw [if_pos hr] at h
        by_cases hemp : ((Generate.revise c d x y).1 x).isEmpty = true
        · rw [if_pos hemp] at h
          cases h
          exact ⟨x, hwf (x, y) (List.mem_cons_self _ _),
            List.isEmpty_iff.mp hemp⟩
        · rw [if_neg hemp] at h
          refine ih _ _ _ ?_ h hres
          intro ar har
          rcases List.mem_append.mp har with h1 | h2
          · exact hwf ar (List.mem_cons_of_mem _ h1)
          · obtain ⟨z, hz, rfl⟩ := List.mem_map.mp h2
            exact Generate.neighbors_subset c x z (List.mem_filter.mp hz).1
      · rw [if_neg hr] at h
        exact ih _ _ _ (fun ar har => hwf ar (List.mem_cons_of_mem _ har))
          h hres

theorem Generate.select_foldl_min (c : Crossword) (d : Domains) :
    ∀ (rest : List Variable) (v : Variable),
      (d (rest.foldl
          (fun best u => if Generate.ltVar c d u best then u else best)
          v)).length ≤ (d v).length ∧
      ∀ u ∈ rest,
        (d (rest.foldl
            (fun best u => if Generate.ltVar c d u best then u else best)
            v)).length ≤ (d u).length := by
  intro rest
  induction rest with
  | nil =>
    intro v
    exact ⟨Nat.le_refl _, fun u hu => absurd hu (List.not_mem_nil u)⟩
  | cons u us ih =>
    intro v
    show (d (us.foldl _ (if Generate.ltVar c d u v then u else v))).length
        ≤ (d v).length ∧ _
    have hstep :
        (d (if Generate.ltVar c d u v then u else v)).length ≤ (d v).length ∧
        (d (if Generate.ltVar c d u v then u else v)).length ≤ (d u).length := by
      by_cases hlt : Generate.ltVar c d u v = true
      · rw [if_pos hlt]
        have huv : (d u).length ≤ (d v).length := by
          unfold Generate.ltVar at hlt
          rw [Bool.or_eq_true] at hlt
          rcases hlt with hb | hb
          · exact Nat.le_of_lt (Nat.blt_eq.mp hb)
          · rw [Bool.and_eq_true] at hb
            have heq := hb.1
            exact Nat.le_of_eq (by simpa using heq)
        exact ⟨huv, Nat.le_refl _⟩
      · rw [if_neg hlt]
        have hvu : (d v).length ≤ (d u).length := by
          have hnb : ¬ (Nat.blt (d u).length (d v).length = true) := by
            intro hb
            exact hlt (by unfold Generate.ltVar; rw [Bool.or_eq_true]; exact Or.inl hb)
          have : ¬ ((d u).length < (d v).length) :=
            fun hc => hnb (Nat.blt_eq.mpr hc)
          omega
        exact ⟨Nat.le_refl _, hvu⟩
    obtain ⟨h1, h2⟩ := ih (if Generate.ltVar c d u v then u else v)
    refine ⟨Nat.le_trans h1 hstep.1, ?_⟩
    intro w hw
    rcases List.mem_cons.mp hw with rfl | hw'
    · exact Nat.le_trans h1 hstep.2
    · exact h2 w hw'

theorem Generate.select_empty_domain (c : Crossword) (d : Domains)
    (a : Assignment) (var : Variable)
    (hsel : Generate.select_unassigned_variable c d a = some var)
    (hex : ∃ u ∈ c.vars, containsKeyA a u = false ∧ d u = []) :
    d var = [] := by
  unfold Generate.select_unassigned_variable at hsel
  obtain ⟨u, hu, hua, hde⟩ := hex
  have humem : u ∈ c.vars.filter (fun v => !(containsKeyA a v)) :=
    List.mem_filter.mpr ⟨hu, by rw [hua]; rfl⟩
  cases hfl : c.vars.filter (fun v => !(containsKeyA a v)) with
  | nil => rw [hfl] at humem; cases humem
  | cons v0 vrest =>
    rw [hfl] at hsel humem
    have hvar : vrest.foldl
        (fun best u => if Generate.ltVar c d u best then u else best) v0
        = var := by
      injection hsel
    have hmin := Generate.select_foldl_min c d vrest v0
    rw [hvar] at hmin
    rcases List.mem_cons.mp humem with rfl | hu'
    · have hle := hmin.1
      rw [hde] at hle
      exact List.length_eq_zero.mp (Nat.le_zero.mp hle)
    · have hle := hmin.2 u hu'
      rw [hde] at hle
      exact List.length_eq_zero.mp (Nat.le_zero.mp hle)

theorem Generate.complete_nil_false (c : Crossword) (v : Variable)
    (hv : v ∈ c.vars) : Generate.assignment_complete c [] = false := by
  have hall : c.vars.all (fun v => containsKeyA [] v) = false := by
    rcases Bool.eq_false_or_eq_true (c.vars.all (fun v => containsKeyA [] v))
      with h | h
    · have := List.all_eq_true.mp h v hv
      cases this
    · exact h
  unfold Generate.assignment_complete
  rw [hall, Bool.false_and]

/-- Claim C2, amended: `solve` runs `enforce_node_consistency`, then a
full unseeded `ac3` pass, but ignores the pass's boolean result and
unconditionally calls `backtrack` on the empty assignment; when the pass
returned false (some domain emptied) the backtrack call fails
immediately, so `solve` still returns the failure signal. -/
theorem claim_solve_amended (c : Crossword) (fuelAC fuelBT : Nat)
    (h : (Generate.ac3 c fuelAC
        (Generate.enforce_node_consistency c (initialDomains c))
        (Generate.allArcs c)).map Prod.snd = some false)
    (hbt : 1 ≤ fuelBT) :
    Generate.solve c fuelAC fuelBT = some none := by
  obtain ⟨res, hres, hres2⟩ := Option.map_eq_some'.mp h
  unfold Generate.solve
  simp only [hres]
  obtain ⟨v, hv, hvd⟩ :=
    Generate.ac3_false_empty c fuelAC _ _ res (Generate.allArcs_wf c)
      hres hres2
  obtain ⟨k, rfl⟩ : ∃ k, fuelBT = k + 1 := ⟨fuelBT - 1, by omega⟩
  simp only [Generate.backtrack]
  rw [if_neg (by rw [Generate.complete_nil_false c v hv]; exact Bool.false_ne_true)]
  cases hsel : Generate.select_unassigned_variable c res.1 [] with
  | none =>
    exfalso
    unfold Generate.select_unassigned_variable at hsel
    have humem : v ∈ c.vars.filter (fun u => !(containsKeyA [] u)) :=
      List.mem_filter.mpr ⟨hv, rfl⟩
    cases hfl : c.vars.filter (fun u => !(containsKeyA [] u)) with
    | nil => rw [hfl] at humem; cases humem
    | cons v0 vrest => rw [hfl] at hsel; cases hsel
  | some var =>
    simp only [hsel]
    have hvd2 : res.1 var = [] :=
      Generate.select_empty_domain c res.1 [] var hsel ⟨v, hv, rfl, hvd⟩
    have hodv : Generate.order_domain_values c res.1 var [] = [] := by
      unfold Generate.order_domain_values
      rw [hvd2]
      rfl
    rw [hodv]
    rfl

/-- Counterexample to Claim C2 as stated: on the concrete puzzle `P0` the
full `ac3` pass of `solve` returns false, yet `solve` still enters
`backtrack` (exactly once) instead of returning the failure signal without
searching — the code discards `ac3`'s result. -/
theorem claim_solve_counterexample :
    (Generate.ac3 P0 20
        (Generate.enforce_node_consistency P0 (initialDomains P0))
        (Generate.allArcs P0)).map Prod.snd = some false ∧
    Generate.solveBacktrackCalls P0 20 5 = some 1 :=
  ⟨by decide, by decide⟩

/-- Witness for the amended C2: on `P0` the failed pass still leads to
the failure signal. -/
theorem claim_solve_amended_witness :
    ((Generate.ac3 P0 20
        (Generate.enforce_node_consistency P0 (initialDomains P0))
        (Generate.allArcs P0)).map Prod.snd = some false ∧
      1 ≤ 5) ∧
    Generate.solve P0 20 5 = some none :=
  ⟨⟨by decide, by decide⟩,
    claim_solve_amended P0 20 5 (by decide) (by decide)⟩

/-! ### Completeness of the full ac3 pass (claim C6) -/

/-- Arc consistency of the ordered pair `(x, y)`: every word of `x`'s
domain has a supporting word in `y`'s domain at the overlap positions
(vacuous with no overlap). -/
def ArcOK (c : Crossword) (d : Domains) (x y : Variable) : Prop :=
  ∀ i j, c.overlaps x y = some (i, j) →
    ∀ w ∈ d x, hasSupport d y i j w = true

theorem hasSupport_congr (d1 d2 : Domains) (y : Variable) (i j : Nat)
    (w : Word) (h : d1 y = d2 y) :
    hasSupport d1 y i j w = hasSupport d2 y i j w := by
  unfold hasSupport
  rw [h]

theorem Generate.revise_of_arcOK (c : Crossword) (d : Domains)
    (x y : Variable) (h : ArcOK c d x y) :
    Generate.revise c d x y = (d, false) := by
  cases ho : c.overlaps x y with
  | none => exact Generate.revise_none c d x y ho
  | some ij =>
    obtain ⟨i, j⟩ := ij
    rw [Generate.revise_some_eq c d x y i j ho]
    have hnil : (d x).filter (fun xw => !(hasSupport d y i j xw)) = [] := by
      refine List.filter_eq_nil_iff.mpr ?_
      intro w hw hneg
      rw [h i j ho w hw] at hneg
      cases hneg
    rw [if_pos (by rw [hnil]; rfl)]

theorem Generate.arcOK_of_revise_false (c : Crossword) (d : Domains)
    (x y : Variable) (h : (Generate.revise c d x y).2 = false) :
    ArcOK c d x y := by
  intro i j hij w hw
  have hflag := Generate.revise_flag c d x y i j hij
  rcases Bool.eq_false_or_eq_true (hasSupport d y i j w) with hs | hs
  · exact hs
  · exfalso
    have htrue : (Generate.revise c d x y).2 = true := hflag.mpr ⟨w, hw, hs⟩
    rw [h] at htrue
    cases htrue

theorem Generate.arcOK_self_after_revise (c : Crossword) (d : Domains)
    (x y : Variable) (hxy : y ≠ x) :
    ArcOK c (Generate.revise c d x y).1 x y := by
  intro i j hij w hw
  rw [Generate.revise_eq_filter c d x y i j hij] at hw
  have hsup := (List.mem_filter.mp hw).2
  rw [hasSupport_congr _ d y i j w (Generate.revise_other c d x y y hxy)]
  exact hsup

theorem Generate.arcOK_mono (c : Crossword) (d d1 : Domains)
    (a b : Variable) (h : ArcOK c d a b) (hsub : ∀ w ∈ d1 a, w ∈ d a)
    (hb : d1 b = d b) : ArcOK c d1 a b := by
  intro i j hij w hw
  rw [hasSupport_congr d1 d b i j w hb]
  exact h i j hij w (hsub w hw)

theorem Generate.arcOK_reverse_preserved (c : Crossword) (d : Domains)
    (x y : Variable) (i j : Nat) (hxy : y ≠ x)
    (hov : c.overlaps x y = some (i, j))
    (hrev : c.overlaps y x = some (j, i)) (h : ArcOK c d y x) :
    ArcOK c (Generate.revise c d x y).1 y x := by
  intro i2 j2 hij2 w hw
  rw [hrev] at hij2
  injection hij2 with hpair
  injection hpair with h1 h2
  subst h1
  subst h2
  rw [Generate.revise_other c d x y y hxy] at hw
  have hsup := h j i hrev w hw
  unfold hasSupport at hsup ⊢
  rw [List.any_eq_true] at hsup ⊢
  obtain ⟨u, hu, hmatch⟩ := hsup
  refine ⟨u, ?_, hmatch⟩
  rw [Generate.revise_eq_filter c d x y i j hov]
  refine List.mem_filter.mpr ⟨hu, ?_⟩
  unfold hasSupport
  rw [List.any_eq_true]
  refine ⟨w, hw, ?_⟩
  have heq : w.get? j = u.get? i := by simpa using hmatch
  rw [beq_iff_eq]
  exact heq.symm

/-- The queue well-formedness `ac3` maintains: every queued arc joins two
distinct slots of the puzzle. -/
def QueueWF (c : Crossword) (q : List (Variable × Variable)) : Prop :=
  ∀ ar ∈ q, ar.1 ∈ c.vars ∧ ar.2 ∈ c.vars ∧ ar.1 ≠ ar.2

/-- The AC-3 loop invariant: every neighbor pair is already arc-consistent
or still awaits processing on the worklist. -/
def AllPending (c : Crossword) (d : Domains) (q : List (Variable × Variable)) :
    Prop :=
  ∀ x ∈ c.vars, ∀ y ∈ c.neighbors x, ((x, y) ∈ q ∨ ArcOK c d x y)

theorem Crossword.mem_neighbors (c : Crossword) (x z : Variable) :
    z ∈ c.neighbors x ↔ z ∈ c.vars ∧ z ≠ x ∧ (c.overlaps x z).isSome = true := by
  unfold Crossword.neighbors
  rw [List.mem_filter]
  constructor
  · rintro ⟨h1, h2⟩
    rw [Bool.and_eq_true] at h2
    exact ⟨h1, by simpa using h2.1, h2.2⟩
  · rintro ⟨h1, h2, h3⟩
    refine ⟨h1, ?_⟩
    rw [Bool.and_eq_true]
    exact ⟨by simpa using h2, h3⟩

theorem Generate.ac3_true_arcOK (c : Crossword) (hsym : SymmOverlaps c) :
    ∀ fuel (d : Domains) q res, QueueWF c q → AllPending c d q →
      Generate.ac3 c fuel d q = some res → res.2 = true →
      ∀ x ∈ c.vars, ∀ y ∈ c.neighbors x, ArcOK c res.1 x y := by
  intro fuel
  induction fuel with
  | zero => intro d q res _ _ h _; cases h
  | succ fuel ih =>
    intro d q res hq hpend h hres
    match q with
    | [] =>
      simp only [Generate.ac3] at h
      cases h
      intro x hx y hy
      rcases hpend x hx y hy with hmem | hok
      · cases hmem
      · exact hok
    | (x, y) :: rest =>
      obtain ⟨hxv, hyv, hxyne⟩ := hq (x, y) (List.mem_cons_self _ _)
      simp only [Generate.ac3] at h
      by_cases hr : (Generate.revise c d x y).2 = true
      · rw [if_pos hr] at h
        by_cases hemp : ((Generate.revise c d x y).1 x).isEmpty = true
        · rw [if_pos hemp] at h
          cases h
          simp at hres
        · rw [if_neg hemp] at h
          -- the revision really happened: the overlap exists
          have hov : ∃ i j, c.overlaps x y = some (i, j) := by
            cases ho : c.overlaps x y with
            | none =>
              rw [Generate.revise_none c d x y ho] at hr
              cases hr
            | some ij =>
              obtain ⟨i, j⟩ := ij
              exact ⟨i, j, rfl⟩
          obtain ⟨i, j, hov⟩ := hov
          have hrev : c.overlaps y x = some (j, i) := by
            have := hsym x hxv y hyv
            rw [this, hov]
            rfl
          refine ih (Generate.revise c d x y).1 _ res ?_ ?_ h hres
          · -- queue well-formedness is preserved
            intro ar har
            rcases List.mem_append.mp har with h1 | h2
            · exact hq ar (List.mem_cons_of_mem _ h1)
            · obtain ⟨z, hz, rfl⟩ := List.mem_map.mp h2
              have hz2 := (List.mem_filter.mp hz).1
              have hz3 := (Crossword.mem_neighbors c x z).mp hz2
              exact ⟨hz3.1, hxv, hz3.2.1⟩
          · -- the invariant is preserved
            intro a ha b hb
            rcases hpend a ha b hb with hmem | hok
            · rcases List.mem_cons.mp hmem with heq | hmem'
              · -- the popped pair itself: now arc-consistent
                have ha2 : a = x := congrArg Prod.fst heq
                have hb2 : b = y := congrArg Prod.snd heq
                rw [ha2, hb2]
                exact Or.inr
                  (Generate.arcOK_self_after_revise c d x y (Ne.symm hxyne))
              · exact Or.inl (List.mem_append.mpr (Or.inl hmem'))
            · by_cases hbx : b = x
              · by_cases hay : a = y
                · rw [hbx, hay]
                  rw [hbx, hay] at hok
                  exact Or.inr (Generate.arcOK_reverse_preserved c d x y i j
                    (Ne.symm hxyne) hov hrev hok)
                · -- re-enqueued as (a, x)
                  rw [hbx]
                  rw [hbx] at hb
                  refine Or.inl (List.mem_append.mpr (Or.inr ?_))
                  have hb3 := (Crossword.mem_neighbors c a x).mp hb
                  have hanb : a ∈ c.neighbors x := by
                    rw [Crossword.mem_neighbors]
                    refine ⟨ha, fun hab => hb3.2.1 hab.symm, ?_⟩
                    have hs := hsym a ha x hxv
                    rw [hs]
                    cases hoax : c.overlaps a x with
                    | none => rw [hoax] at hb3; simp at hb3
                    | some ij2 => rfl
                  refine List.mem_map.mpr ⟨a, ?_, rfl⟩
                  refine List.mem_filter.mpr ⟨hanb, ?_⟩
                  simpa using hay
              · refine Or.inr (Generate.arcOK_mono c d _ a b hok ?_ ?_)
                · intro w hw
                  exact Generate.revise_subset c d x y a hw
                · exact Generate.revise_other c d x y b hbx
      · rw [if_neg hr] at h
        rw [Generate.revise_false_fst c d x y
          (Bool.eq_false_iff.mpr hr)] at h
        refine ih d rest res ?_ ?_ h hres
        · intro ar har
          exact hq ar (List.mem_cons_of_mem _ har)
        · intro a ha b hb
          rcases hpend a ha b hb with hmem | hok
          · rcases List.mem_cons.mp hmem with heq | hmem'
            · have ha2 : a = x := congrArg Prod.fst heq
              have hb2 : b = y := congrArg Prod.snd heq
              rw [ha2, hb2]
              exact Or.inr (Generate.arcOK_of_revise_false c d x y
                (Bool.eq_false_iff.mpr hr))
            · exact Or.inl hmem'
          · exact Or.inr hok

/-- Claim C6: if the full `ac3` pass (seeded with every neighbor pair)
returns true, every ordered neighbor pair is arc-consistent: a subsequent
`revise` on any such pair removes nothing and returns false. -/
theorem claim_ac3_completeness (c : Crossword) (hsym : SymmOverlaps c)
    (fuel : Nat) (d d' : Domains)
    (hac : Generate.ac3 c fuel d (Generate.allArcs c) = some (d', true)) :
    ∀ x ∈ c.vars, ∀ y ∈ c.neighbors x,
      Generate.revise c d' x y = (d', false) := by
  have hq : QueueWF c (Generate.allArcs c) := by
    intro ar har
    obtain ⟨x, hx, hmem⟩ := List.mem_flatMap.mp har
    obtain ⟨y, hy, rfl⟩ := List.mem_map.mp hmem
    have hy2 := (Crossword.mem_neighbors c x y).mp hy
    exact ⟨hx, hy2.1, fun hxy => hy2.2.1 hxy.symm⟩
  have hpend : AllPending c d (Generate.allArcs c) := by
    intro x hx y hy
    refine Or.inl (List.mem_flatMap.mpr ⟨x, hx, ?_⟩)
    exact List.mem_map.mpr ⟨y, hy, rfl⟩
  have := Generate.ac3_true_arcOK c hsym fuel d (Generate.allArcs c)
    (d', true) hq hpend hac rfl
  intro x hx y hy
  exact Generate.revise_of_arcOK c d' x y (this x hx y hy)

/-- Witness for C6 on the solvable puzzle `P1`: the full pass succeeds
without removal and every neighbor pair is then revise-stable. -/
theorem claim_ac3_completeness_witness :
    (SymmOverlaps P1 ∧
      Generate.ac3 P1 20 (initialDomains P1) (Generate.allArcs P1)
        = some (initialDomains P1, true)) ∧
    ∀ x ∈ P1.vars, ∀ y ∈ P1.neighbors x,
      Generate.revise P1 (initialDomains P1) x y
        = (initialDomains P1, false) :=
  ⟨⟨by decide, rfl⟩,
    claim_ac3_completeness P1 (by decide) 20 (initialDomains P1)
      (initialDomains P1) rfl⟩

/-! ### Assignment lemmas (towards claim C3) -/

theorem lookupA_some_mem (a : Assignment) (v : Variable) (w : Word)
    (h : lookupA a v = some w) : (v, w) ∈ a := by
  unfold lookupA at h
  obtain ⟨kv, hfind, hkv2⟩ := Option.map_eq_some'.mp h
  have hmem := List.mem_of_find?_eq_some hfind
  have hkv1 : kv.1 = v := by simpa using List.find?_some hfind
  have hkv : kv = (v, w) := by
    obtain ⟨k1, k2⟩ := kv
    simp only at hkv1 hkv2
    rw [hkv1, hkv2]
  rw [← hkv]
  exact hmem

theorem lookupA_of_mem_nodup (a : Assignment) (v : Variable) (w : Word)
    (hmem : (v, w) ∈ a) (hnod : (a.map Prod.fst).Nodup) :
    lookupA a v = some w := by
  induction a with
  | nil => cases hmem
  | cons kv rest ih =>
    rcases List.mem_cons.mp hmem with heq | hmem'
    · unfold lookupA
      rw [← heq]
      rw [List.find?_cons_of_pos rest (by simp)]
      rfl
    · rw [List.map_cons] at hnod
      have hnod' := List.nodup_cons.mp hnod
      have hne : ¬ ((kv.1 == v) = true) := by
        intro he
        have hv : v ∈ rest.map Prod.fst :=
          List.mem_map.mpr ⟨(v, w), hmem', rfl⟩
        have hk : kv.1 = v := by simpa using he
        rw [hk] at hnod'
        exact hnod'.1 hv
      unfold lookupA
      rw [List.find?_cons_of_neg rest hne]
      exact ih hmem' hnod'.2

theorem containsKeyA_true_iff (a : Assignment) (v : Variable) :
    containsKeyA a v = true ↔ ∃ kv ∈ a, kv.1 = v := by
  unfold containsKeyA
  rw [List.any_eq_true]
  constructor
  · rintro ⟨kv, hkv, hpred⟩
    exact ⟨kv, hkv, by simpa using hpred⟩
  · rintro ⟨kv, hkv, hpred⟩
    exact ⟨kv, hkv, by simpa using hpred⟩

theorem lookupA_exists_of_containsKey (a : Assignment) (v : Variable)
    (h : containsKeyA a v = true) : ∃ w, lookupA a v = some w := by
  unfold lookupA
  cases hf : a.find? (fun kv => kv.1 == v) with
  | none =>
    exfalso
    obtain ⟨kv, hkv, hpred⟩ := (containsKeyA_true_iff a v).mp h
    exact (List.find?_eq_none.mp hf) kv hkv (by simpa using hpred)
  | some kv => exact ⟨kv.2, rfl⟩

theorem not_mem_keys_of_containsKey_false (a : Assignment) (v : Variable)
    (h : containsKeyA a v = false) : v ∉ a.map Prod.fst := by
  intro hmem
  obtain ⟨kv, hkv, hfst⟩ := List.mem_map.mp hmem
  have : containsKeyA a v = true :=
    (containsKeyA_true_iff a v).mpr ⟨kv, hkv, hfst⟩
  rw [h] at this
  cases this

/-- `a` is a sub-assignment of `A`: every binding of `a` is a binding of
`A`. -/
def SubAssign (a A : Assignment) : Prop :=
  ∀ kv ∈ a, lookupA A kv.1 = some kv.2

theorem SubAssign.nil (A : Assignment) : SubAssign [] A :=
  fun kv hkv => absurd hkv (List.not_mem_nil kv)

theorem SubAssign.insert (a A : Assignment) (var : Variable) (w : Word)
    (hsub : SubAssign a A) (hw : lookupA A var = some w) :
    SubAssign (insertA a var w) A := by
  intro kv hkv
  rcases List.mem_append.mp hkv with hold | hnew
  · exact hsub kv hold
  · have : kv = (var, w) := List.mem_singleton.mp hnew
    rw [this]
    exact hw

theorem dedup_length_beq_iff (l : List Word) :
    ((l.dedup.length == l.length) = true) ↔ l.Nodup := by
  constructor
  · intro h
    have hlen : l.dedup.length = l.length := by simpa using h
    have : l.dedup = l := (List.dedup_sublist l).eq_of_length hlen
    exact List.dedup_eq_self.mp this
  · intro h
    have : l.dedup = l := List.dedup_eq_self.mpr h
    simp [this]

theorem Generate.consistent_parts (c : Crossword) (a : Assignment) :
    Generate.consistent c a = true ↔
      ((a.map Prod.snd).Nodup ∧
        ∀ kv ∈ a, ((kv.1.length == kv.2.length) &&
          (c.neighbors kv.1).all (fun n =>
            match c.overlaps kv.1 n with
            | none => true
            | some (i, j) =>
              match lookupA a n with
              | none => true
              | some w2 => kv.2.get? i == w2.get? j)) = true) := by
  unfold Generate.consistent
  rw [Bool.and_eq_true, List.all_eq_true]
  constructor
  · rintro ⟨h1, h2⟩
    refine ⟨?_, h2⟩
    have : ((a.map Prod.snd).dedup.length == (a.map Prod.snd).length)
        = true := by
      rw [List.length_map]
      exact h1
    exact (dedup_length_beq_iff _).mp this
  · rintro ⟨h1, h2⟩
    refine ⟨?_, h2⟩
    have := (dedup_length_beq_iff _).mpr h1
    rw [List.length_map] at this
    exact this

theorem Generate.consistent_subassign (c : Crossword) (a A : Assignment)
    (hconsA : Generate.consistent c A = true) (hsub : SubAssign a A)
    (hnoda : (a.map Prod.fst).Nodup) :
    Generate.consistent c a = true := by
  obtain ⟨hvalsA, hallA⟩ := (Generate.consistent_parts c A).mp hconsA
  refine (Generate.consistent_parts c a).mpr ⟨?_, ?_⟩
  · -- the values of a sub-assignment stay pairwise distinct
    have hkeys : a.Pairwise (fun kv1 kv2 => kv1.1 ≠ kv2.1) :=
      List.pairwise_map.mp hnoda
    have hvals : a.Pairwise (fun kv1 kv2 => kv1.2 ≠ kv2.2) := by
      refine hkeys.imp_of_mem ?_
      intro kv1 kv2 h1 h2 hne heq2
      have hm1 : (kv1.1, kv1.2) ∈ A := lookupA_some_mem A _ _ (hsub kv1 h1)
      have hm2 : (kv2.1, kv2.2) ∈ A := lookupA_some_mem A _ _ (hsub kv2 h2)
      have := List.inj_on_of_nodup_map hvalsA hm1 hm2 (by simpa using heq2)
      exact hne (congrArg Prod.fst this)
    exact List.pairwise_map.mpr hvals
  · intro kv hkv
    have hmA : (kv.1, kv.2) ∈ A := lookupA_some_mem A _ _ (hsub kv hkv)
    have hA := hallA (kv.1, kv.2) hmA
    rw [Bool.and_eq_true] at hA ⊢
    refine ⟨hA.1, ?_⟩
    rw [List.all_eq_true] at hA ⊢
    intro n hn
    have hAn := hA.2 n hn
    cases ho : c.overlaps kv.1 n with
    | none => rfl
    | some ij =>
      obtain ⟨i, j⟩ := ij
      rw [ho] at hAn
      cases hl : lookupA a n with
      | none => rfl
      | some w2 =>
        have hlA : lookupA A n = some w2 :=
          hsub (n, w2) (lookupA_some_mem a n w2 hl)
        rw [hlA] at hAn
        exact hAn

/-! ### Soundness and completeness of generate.py's backtrack (claim C3) -/

theorem Generate.consistent_nil (c : Crossword) :
    Generate.consistent c [] = true := rfl

theorem Generate.foldl_choice_mem (c : Crossword) (d : Domains) :
    ∀ (rest : List Variable) (v : Variable),
      rest.foldl (fun best u => if Generate.ltVar c d u best then u else best)
        v ∈ v :: rest := by
  intro rest
  induction rest with
  | nil => intro v; exact List.mem_singleton.mpr rfl
  | cons u us ih =>
    intro v
    show us.foldl _ (if Generate.ltVar c d u v then u else v) ∈ v :: u :: us
    have h := ih (if Generate.ltVar c d u v then u else v)
    rcases List.mem_cons.mp h with heq | hmem
    · rw [heq]
      by_cases hlt : Generate.ltVar c d u v = true
      · rw [if_pos hlt]
        exact List.mem_cons_of_mem _ (List.mem_cons_self _ _)
      · rw [if_neg hlt]
        exact List.mem_cons_self _ _
    · exact List.mem_cons_of_mem _ (List.mem_cons_of_mem _ hmem)

theorem Generate.select_some_mem (c : Crossword) (d : Domains)
    (a : Assignment) (var : Variable)
    (hsel : Generate.select_unassigned_variable c d a = some var) :
    var ∈ c.vars ∧ containsKeyA a var = false := by
  unfold Generate.select_unassigned_variable at hsel
  cases hfl : c.vars.filter (fun v => !(containsKeyA a v)) with
  | nil => rw [hfl] at hsel; cases hsel
  | cons v0 rest =>
    rw [hfl] at hsel
    have hvar : rest.foldl
        (fun best u => if Generate.ltVar c d u best then u else best) v0
        = var := by
      injection hsel
    have hmem : var ∈ v0 :: rest := by
      rw [← hvar]
      exact Generate.foldl_choice_mem c d rest v0
    rw [← hfl] at hmem
    have hf := List.mem_filter.mp hmem
    refine ⟨hf.1, ?_⟩
    have h2 := hf.2
    simpa using h2

theorem Generate.backtrackGo_none_inv (c : Crossword)
    (bt : Assignment → Option (Option Assignment)) (a : Assignment)
    (var : Variable) :
    ∀ l, Generate.backtrackGo c bt a var l = some none →
      ∀ w ∈ l, Generate.consistent c (insertA a var w) = true →
        bt (insertA a var w) = some none := by
  intro l
  induction l with
  | nil => intro _ w hw _; exact absurd hw (List.not_mem_nil w)
  | cons value rest ih =>
    intro h w hw hcons
    simp only [Generate.backtrackGo] at h
    by_cases hc : Generate.consistent c (insertA a var value) = true
    · rw [if_pos hc] at h
      cases hbt : bt (insertA a var value) with
      | none => simp [hbt] at h
      | some r =>
        cases r with
        | some r2 => simp [hbt] at h
        | none =>
          simp only [hbt] at h
          rcases List.mem_cons.mp hw with rfl | hw'
          · exact hbt
          · exact ih h w hw' hcons
    · rw [if_neg hc] at h
      rcases List.mem_cons.mp hw with rfl | hw'
      · exact absurd hcons hc
      · exact ih h w hw' hcons

theorem Generate.backtrackGo_some_inv (c : Crossword)
    (bt : Assignment → Option (Option Assignment)) (a : Assignment)
    (var : Variable) :
    ∀ l r, Generate.backtrackGo c bt a var l = some (some r) →
      ∃ w ∈ l, Generate.consistent c (insertA a var w) = true ∧
        bt (insertA a var w) = some (some r) := by
  intro l
  induction l with
  | nil => intro r h; simp [Generate.backtrackGo] at h
  | cons value rest ih =>
    intro r h
    simp only [Generate.backtrackGo] at h
    by_cases hc : Generate.consistent c (insertA a var value) = true
    · rw [if_pos hc] at h
      cases hbt : bt (insertA a var value) with
      | none => simp [hbt] at h
      | some rr =>
        cases rr with
        | some r2 =>
          simp only [hbt] at h
          have hr : r2 = r := by simpa using h
          rw [hr] at hbt
          exact ⟨value, List.mem_cons_self _ _, hc, hbt⟩
        | none =>
          simp only [hbt] at h
          obtain ⟨w, hw, hc2, hbt2⟩ := ih r h
          exact ⟨w, List.mem_cons_of_mem _ hw, hc2, hbt2⟩
    · rw [if_neg hc] at h
      obtain ⟨w, hw, hc2, hbt2⟩ := ih r h
      exact ⟨w, List.mem_cons_of_mem _ hw, hc2, hbt2⟩

theorem Generate.backtrack_sound (c : Crossword) (d : Domains) :
    ∀ fuel (a : Assignment) r, Generate.consistent c a = true →
      Generate.backtrack c d fuel a = some (some r) →
      Generate.assignment_complete c r = true ∧
        Generate.consistent c r = true := by
  intro fuel
  induction fuel with
  | zero => intro a r _ h; cases h
  | succ fuel ih =>
    intro a r hcons h
    simp only [Generate.backtrack] at h
    by_cases hcomp : Generate.assignment_complete c a = true
    · rw [if_pos hcomp] at h
      have har : a = r := by simpa using h
      rw [← har]
      exact ⟨hcomp, hcons⟩
    · rw [if_neg hcomp] at h
      cases hsel : Generate.select_unassigned_variable c d a with
      | none => rw [hsel] at h; cases h
      | some var =>
        simp only [hsel] at h
        obtain ⟨w, _, hc2, hbt⟩ :=
          Generate.backtrackGo_some_inv c _ a var _ r h
        exact ih (insertA a var w) r hc2 hbt

theorem Generate.backtrack_complete_aux (c : Crossword) (d : Domains)
    (A : Assignment) (_hA_nod : (A.map Prod.fst).Nodup)
    (hA_comp : Generate.assignment_complete c A = true)
    (hA_cons : Generate.consistent c A = true)
    (hA_dom : ∀ kv ∈ A, kv.2 ∈ d kv.1) :
    ∀ fuel (a : Assignment), (a.map Prod.fst).Nodup → SubAssign a A →
      Generate.backtrack c d fuel a ≠ some none := by
  intro fuel
  induction fuel with
  | zero => intro a _ _ h; cases h
  | succ fuel ih =>
    intro a hnoda hsub h
    simp only [Generate.backtrack] at h
    by_cases hcomp : Generate.assignment_complete c a = true
    · rw [if_pos hcomp] at h
      simp at h
    · rw [if_neg hcomp] at h
      cases hsel : Generate.select_unassigned_variable c d a with
      | none => rw [hsel] at h; cases h
      | some var =>
        simp only [hsel] at h
        obtain ⟨hvv, hvna⟩ := Generate.select_some_mem c d a var hsel
        have hAc : containsKeyA A var = true := by
          have h1 := hA_comp
          unfold Generate.assignment_complete at h1
          rw [Bool.and_eq_true] at h1
          exact List.all_eq_true.mp h1.1 var hvv
        obtain ⟨w, hw⟩ := lookupA_exists_of_containsKey A var hAc
        have hmemA : (var, w) ∈ A := lookupA_some_mem A var w hw
        have hwd : w ∈ d var := hA_dom (var, w) hmemA
        have hwodv : w ∈ Generate.order_domain_values c d var a := by
          unfold Generate.order_domain_values
          exact (sortWith_perm _ _).mem_iff.mpr hwd
        have hsub2 := SubAssign.insert a A var w hsub hw
        have hnoda2 : ((insertA a var w).map Prod.fst).Nodup := by
          unfold insertA
          rw [List.map_append, List.nodup_append]
          refine ⟨hnoda, by simp, ?_⟩
          intro x hx hx2
          have hxv : x = var := by simpa using hx2
          rw [hxv] at hx
          exact not_mem_keys_of_containsKey_false a var hvna hx
        have hcons2 := Generate.consistent_subassign c (insertA a var w) A
          hA_cons hsub2 hnoda2
        have hbt := Generate.backtrackGo_none_inv c _ a var _ h w hwodv hcons2
        exact ih (insertA a var w) hnoda2 hsub2 hbt

/-- Claim C3: generate.py's `backtrack` from the empty assignment is sound
— a non-failure result is a complete, consistent assignment — and its
failure is definitive: no complete consistent assignment drawing each
slot's word from the search domains exists. -/
theorem claim_backtrack_sound_complete (c : Crossword) (d : Domains)
    (fuel : Nat) :
    (∀ r, Generate.backtrack c d fuel [] = some (some r) →
      Generate.assignment_complete c r = true ∧
        Generate.consistent c r = true) ∧
    (Generate.backtrack c d fuel [] = some none →
      ¬ ∃ A : Assignment, (A.map Prod.fst).Nodup ∧
        Generate.assignment_complete c A = true ∧
        Generate.consistent c A = true ∧
        ∀ kv ∈ A, kv.2 ∈ d kv.1) := by
  constructor
  · intro r h
    exact Generate.backtrack_sound c d fuel [] r (Generate.consistent_nil c) h
  · rintro h ⟨A, h1, h2, h3, h4⟩
    exact Generate.backtrack_complete_aux c d A h1 h2 h3 h4 fuel []
      (by simp) (SubAssign.nil A) h

/-- Witness for C3: on the solvable puzzle `P1` the search returns the
unique solution, which is complete and consistent. -/
theorem claim_backtrack_sound_complete_witness :
    Generate.backtrack P1 (initialDomains P1) 3 []
        = some (some [(vA, ['a','b','c']), (vD, ['a','x','y'])]) ∧
    (Generate.assignment_complete P1
        [(vA, ['a','b','c']), (vD, ['a','x','y'])] = true ∧
      Generate.consistent P1
        [(vA, ['a','b','c']), (vD, ['a','x','y'])] = true) :=
  ⟨by decide,
    (claim_backtrack_sound_complete P1 (initialDomains P1) 3).1 _ (by decide)⟩

end CrosswordCSP
